import Mathlib

/-!
Shallow embedding of the Option Tree core of `bitrise-init`
(`models/option.go`) and of the walk / config-synthesis code of the CLI
(`initManualConfig` with its inner `walkDepth`).

Go pointers to `OptionModel` are modelled as addresses (`Nat`) into an
explicit heap (a list of node records); `nil` pointers are `Option.none`.
Go maps `map[string]*OptionModel` are modelled as association lists in
insertion order (Go map iteration order is unspecified; the list order is
the deterministic stand-in for it).  Go slices of strings are modelled as
pure lists (value semantics).  Recursive Go functions that can diverge on
cyclic heaps are given an explicit fuel argument; exhausted fuel returns
`none`, modelling divergence.
-/

set_option autoImplicit false

namespace BitriseInit

/-- A Go pointer value `*OptionModel`: an address into the heap. -/
abbrev Addr := Nat

/-- `models.OptionModel` (src/models/option.go).  `OptType` is the Go field
`Type Type` (renamed, `Type` is not a valid Lean field name); the `Type`
string constants are irrelevant to the claims and kept as plain strings.
`ChildOptionMap` entries may be nil pointers (`Option.none`). -/
structure OptionModel where
  Title : String
  EnvKey : String
  OptType : String
  ChildOptionMap : List (String × Option Addr)
  Config : String
  Components : List String
  Head : Option Addr
  deriving Repr, DecidableEq

/-- The heap: address `a` is valid iff `a < h.length`. -/
abbrev Heap := List OptionModel

/-- Go map lookup `m[k]` distinguishing "key absent" (`none`) from
"key present with value `v`" (`some v`, where `v` itself may be a nil
pointer). -/
def childLookup (m : List (String × Option Addr)) (k : String) : Option (Option Addr) :=
  match m with
  | [] => none
  | (k', v) :: rest => if k' = k then some v else childLookup rest k

/-- Go map assignment `m[k] = v`: overwrite in place if the key exists,
otherwise add the binding. -/
def mapSet (m : List (String × Option Addr)) (k : String) (v : Option Addr) :
    List (String × Option Addr) :=
  match m with
  | [] => [(k, v)]
  | (k', v') :: rest => if k' = k then (k, v) :: rest else (k', v') :: mapSet rest k v

/-- `IsConfigOption` (option.go). -/
def OptionModel.IsConfigOption (o : OptionModel) : Bool :=
  o.Config ≠ ""

/-- `IsValueOption` (option.go). -/
def OptionModel.IsValueOption (o : OptionModel) : Bool :=
  o.Title ≠ ""

/-- `IsEmpty` (option.go). -/
def OptionModel.IsEmpty (o : OptionModel) : Bool :=
  !o.IsValueOption && !o.IsConfigOption

/-- `AddOption` (option.go).  First inserts the child pointer into the
receiver's map, then (for a non-nil child) sets the child's `Components`
to the receiver's components extended by the edge value and the child's
`Head` to the receiver (if the receiver is a root, i.e. `Head == nil`) or
to the receiver's own `Head`.  A nil receiver would be a Go nil-pointer
panic; it never occurs in this development, and that branch leaves the
heap unchanged. -/
def AddOption (h : Heap) (optionA : Addr) (forValue : String) (newOption : Option Addr) : Heap :=
  match h[optionA]? with
  | none => h
  | some pnode =>
    let h1 := h.set optionA { pnode with ChildOptionMap := mapSet pnode.ChildOptionMap forValue newOption }
    match newOption with
    | none => h1
    | some na =>
      match h1[na]?, h1[optionA]? with
      | some nnode, some pnode1 =>
        h1.set na { nnode with
          Components := pnode1.Components ++ [forValue]
          Head := match pnode1.Head with
            | none => some optionA
            | some x => some x }
      | _, _ => h1

/-- `AddConfig` (option.go): its body is character-for-character the body
of `AddOption`. -/
def AddConfig (h : Heap) (optionA : Addr) (forValue : String) (newConfigOption : Option Addr) : Heap :=
  match h[optionA]? with
  | none => h
  | some pnode =>
    let h1 := h.set optionA { pnode with ChildOptionMap := mapSet pnode.ChildOptionMap forValue newConfigOption }
    match newConfigOption with
    | none => h1
    | some na =>
      match h1[na]?, h1[optionA]? with
      | some nnode, some pnode1 =>
        h1.set na { nnode with
          Components := pnode1.Components ++ [forValue]
          Head := match pnode1.Head with
            | none => some optionA
            | some x => some x }
      | _, _ => h1

/-- `Child` (option.go): walk the component list through the children
maps; a missing key and a nil entry both yield "not found" (`none`), as
in the source where `ChildOptionMap[component]` returns nil in both
cases. -/
def Child (h : Heap) (a : Addr) : List String → Option Addr
  | [] => some a
  | component :: rest =>
    match h[a]? with
    | none => none
    | some node =>
      match childLookup node.ChildOptionMap component with
      | some (some ca) => Child h ca rest
      | _ => none

/-- `Parent` (option.go).  Result `none` models a Go panic (only possible
when `Components` is empty while `Head` is non-nil: the source slices
`Components[:len-1]` out of range); `some none` is `(nil, "", false)`;
`some (some (p, k))` is `(p, k, true)`. -/
def Parent (h : Heap) (a : Addr) : Option (Option (Addr × String)) :=
  match h[a]? with
  | none => none
  | some node =>
    match node.Head with
    | none => some none
    | some rootA =>
      if node.Components.isEmpty then none
      else
        match Child h rootA node.Components.dropLast with
        | none => some none
        | some parentA => some (some (parentA, node.Components.getLastD ""))

mutual

/-- `LastChilds` (option.go), the recursive `walk` closure.  Fuel models
termination: the Go code diverges on cyclic heaps; `none` is divergence
(or a dangling address, which cannot arise from the Go API). -/
def lastChildsGo (h : Heap) : Nat → Addr → Option (List Addr)
  | 0, _ => none
  | fuel + 1, a =>
    match h[a]? with
    | none => none
    | some n =>
      if n.ChildOptionMap.isEmpty then some [a]
      else lastChildsScan h fuel a n.ChildOptionMap
termination_by fuel a => (fuel, 0)

/-- The `for _, childOption := range opt.ChildOptionMap` body of
`LastChilds.walk`: a nil, config, or empty child records the *current*
node and stops the scan; otherwise the walk recurses into the child and
the scan continues. -/
def lastChildsScan (h : Heap) : Nat → Addr → List (String × Option Addr) → Option (List Addr)
  | _, _, [] => some []
  | _, a, (_, none) :: _ => some [a]
  | fuel, a, (_, some c) :: rest =>
    match h[c]? with
    | none => none
    | some cn =>
      if cn.IsConfigOption then some [a]
      else if cn.IsEmpty then some [a]
      else
        match lastChildsGo h fuel c with
        | none => none
        | some l =>
          match lastChildsScan h fuel a rest with
          | none => none
          | some r => some (l ++ r)
termination_by fuel a cs => (fuel, cs.length + 1)

end

/-- `GetValues` (option.go): a config node offers its config name, any
other node offers its children's keys. -/
def GetValues (h : Heap) (a : Addr) : List String :=
  match h[a]? with
  | none => []
  | some node =>
    if node.Config ≠ "" then [node.Config]
    else node.ChildOptionMap.map Prod.fst

/-- Inner loop of `RemoveConfigs` (option.go): `for _, child := range
child.ChildOptionMap { child.Config = "" }`.  A nil map entry is a Go
nil-pointer dereference: result `none` (panic).  A dangling address
also yields `none`; it cannot arise from the Go API. -/
def clearChildren (h : Heap) : List (String × Option Addr) → Option Heap
  | [] => some h
  | (_, none) :: _ => none
  | (_, some c) :: rest =>
    match h[c]? with
    | none => none
    | some n => clearChildren (h.set c { n with Config := "" }) rest

/-- Outer loop of `RemoveConfigs`: iterate the collected last children. -/
def clearLoop (h : Heap) : List Addr → Option Heap
  | [] => some h
  | lc :: rest =>
    match h[lc]? with
    | none => none
    | some n =>
      match clearChildren h n.ChildOptionMap with
      | none => none
      | some h1 => clearLoop h1 rest

/-- `RemoveConfigs` (option.go).  `none` is divergence (fuel) or a Go
panic in the clearing loop. -/
def RemoveConfigs (fuel : Nat) (h : Heap) (a : Addr) : Option Heap :=
  match lastChildsGo h fuel a with
  | none => none
  | some l => clearLoop h l

/-- Inner loop of `AttachToLastChilds`: `for _, value := range values {
child.AddOption(value, opt) }`. -/
def attachValues (h : Heap) (lc : Addr) (optA : Option Addr) : List String → Heap
  | [] => h
  | v :: rest => attachValues (AddOption h lc v optA) lc optA rest

/-- Outer loop of `AttachToLastChilds`: for each collected last child,
read its values from the current heap and attach `optA` under each. -/
def attachLoop (h : Heap) (optA : Option Addr) : List Addr → Heap
  | [] => h
  | lc :: rest => attachLoop (attachValues h lc optA (GetValues h lc)) optA rest

/-- `AttachToLastChilds` (option.go): note the source passes the *same*
pointer `opt` to every `AddOption` call; it never copies. -/
def AttachToLastChilds (fuel : Nat) (h : Heap) (a : Addr) (optA : Option Addr) : Option Heap :=
  match lastChildsGo h fuel a with
  | none => none
  | some childs => some (attachLoop h optA childs)

/-! ### `Copy`: the JSON marshal / unmarshal round trip

`Copy` serializes the receiver through `encoding/json`.  The serialized
fields are exactly `Title`, `EnvKey`, `Type`, `ChildOptionMap` (followed
through pointers, recursively) and `Config`; `Components` and `Head`
carry the tag `json:"-"` and are dropped.  `SerTree` is the shape of that
JSON document.  For these field types (`string`s and a string-keyed map)
`json.Marshal`/`json.Unmarshal` cannot return an error on acyclic data;
on cyclic data the marshal recursion diverges, modelled by fuel. -/

/-- The JSON document produced by marshalling an `OptionModel`: a nil
child pointer marshals to JSON `null` (`none`). -/
inductive SerTree where
  | mk (title envKey ty config : String) (children : List (String × Option SerTree))
  deriving Repr

mutual

/-- `json.Marshal` of the node at `a`: read the serializable fields,
following child pointers recursively. -/
def marshalNode (h : Heap) : Nat → Addr → Option SerTree
  | 0, _ => none
  | fuel + 1, a =>
    match h[a]? with
    | none => none
    | some n =>
      match marshalChildren h fuel n.ChildOptionMap with
      | none => none
      | some cs => some (.mk n.Title n.EnvKey n.OptType n.Config cs)
termination_by fuel a => (fuel, 0)

/-- Marshal a children map entry by entry. -/
def marshalChildren (h : Heap) : Nat → List (String × Option Addr) → Option (List (String × Option SerTree))
  | _, [] => some []
  | fuel, (k, none) :: rest =>
    match marshalChildren h fuel rest with
    | none => none
    | some cs => some ((k, none) :: cs)
  | fuel, (k, some c) :: rest =>
    match marshalNode h fuel c with
    | none => none
    | some t =>
      match marshalChildren h fuel rest with
      | none => none
      | some cs => some ((k, some t) :: cs)
termination_by fuel cs => (fuel, cs.length + 1)

end

mutual

/-- `json.Unmarshal` into a fresh `OptionModel`: allocate fresh nodes for
the whole document.  Fields excluded from serialization stay at their
zero values: `Components = []` (nil slice), `Head = none`. -/
def unmarshalNode : SerTree → Heap → Heap × Addr
  | .mk t e ty c cs, h =>
    let p := unmarshalChildren cs h
    (p.1 ++ [{ Title := t, EnvKey := e, OptType := ty, ChildOptionMap := p.2,
               Config := c, Components := [], Head := none }], p.1.length)

/-- Unmarshal a children map entry by entry, threading the heap. -/
def unmarshalChildren : List (String × Option SerTree) → Heap → Heap × List (String × Option Addr)
  | [], h => (h, [])
  | (k, none) :: rest, h =>
    let p := unmarshalChildren rest h
    (p.1, (k, none) :: p.2)
  | (k, some t) :: rest, h =>
    let p := unmarshalNode t h
    let q := unmarshalChildren rest p.1
    (q.1, (k, some p.2) :: q.2)

end

/-- `Copy` (option.go): marshal, and on success unmarshal into a fresh
structure; a marshal/unmarshal error returns nil (`none`).  For the
field shapes of `OptionModel` the only failure mode is divergence on a
cyclic heap (fuel). -/
def Copy (fuel : Nat) (h : Heap) (a : Addr) : Option (Heap × Addr) :=
  match marshalNode h fuel a with
  | none => none
  | some t => some (unmarshalNode t h)

/-! ### The walk (`walkDepth` in the CLI's `initManualConfig`)

`walkDepth` receives a `models.OptionModel` *by value* and only reads its
`ValueMap` (that revision of the model holds children by value).  It is
modelled on a pure tree.  The selection strategy `askForValue` lives
outside the shown sources; it is an abstract parameter returning
`(optionEnvKey, selectedValue)` or an error, exactly the data `walkDepth`
consumes. -/

/-- The option node as `walkDepth` sees it: a pure value tree with a
`ValueMap` of children held by value. -/
inductive WOption where
  | mk (title envKey ty : String) (valueMap : List (String × WOption)) (config : String)
  deriving Repr

/-- The `ValueMap` field of a `WOption`. -/
def WOption.valueMap : WOption → List (String × WOption)
  | .mk _ _ _ vm _ => vm

/-- A selection strategy: the abstract behaviour of `askForValue`. -/
abbrev Strat := WOption → Except String (String × String)

mutual

/-- `walkDepth` (part_001, lines 172-192).  `configPth` and `appEnvs` are
the two variables the Go closure mutates; they are threaded explicitly
and returned on the nil-error exits.  Note the missing-child exit is
`return err` with `err == nil`: a *successful* return. -/
def walkDepth (strat : Strat) (o : WOption) (configPth : String)
    (appEnvs : List (String × String)) : Except String (String × List (String × String)) :=
  match strat o with
  | .error e => .error ("Failed to ask for vale, error: " ++ e)
  | .ok (optionEnvKey, selectedValue) =>
    let configPth1 := if optionEnvKey = "" then selectedValue else configPth
    let appEnvs1 := if optionEnvKey = "" then appEnvs else appEnvs ++ [(optionEnvKey, selectedValue)]
    walkFind strat o.valueMap selectedValue configPth1 appEnvs1
termination_by sizeOf o
decreasing_by
  cases o
  simp [WOption.valueMap]
  omega

/-- The `option.ValueMap[selectedValue]` lookup followed by the recursive
`walkDepth(nestedOptions)` call, or the `return err` (nil) exit when the
key is absent. -/
def walkFind (strat : Strat) (vm : List (String × WOption)) (selectedValue : String)
    (configPth : String) (appEnvs : List (String × String)) :
    Except String (String × List (String × String)) :=
  match vm with
  | [] => .ok (configPth, appEnvs)
  | (k, child) :: rest =>
    if k = selectedValue then walkDepth strat child configPth appEnvs
    else walkFind strat rest selectedValue configPth appEnvs
termination_by sizeOf vm
decreasing_by
  all_goals simp
  omega

end

/-! ### The config synthesis tail of `initManualConfig` (part_001, lines 206-227)

`configMap[configPth]` is a Go map read returning the zero value `""`
for an absent key; the resulting string is parsed by `yaml.Unmarshal`
into a `bitriseModels.BitriseDataModel`, whose `App.Environments` field
is then overwritten with the accumulated `appEnvs`.  The document type
and the YAML parser are external collaborators, modelled at their
interface: the document is its environment block plus opaque remaining
fields, and the parser is an abstract parameter. -/

/-- `bitriseModels.AppModel` at the granularity the code touches: the
`Environments` field plus the rest of the struct, opaque. -/
structure AppModel where
  Environments : List (String × String)
  OtherApp : String
  deriving Repr, DecidableEq

/-- `bitriseModels.BitriseDataModel` at the granularity the code touches. -/
structure BitriseDataModel where
  FormatVersion : String
  DefaultStepLibSource : String
  App : AppModel
  TriggerMap : String
  Workflows : String
  deriving Repr, DecidableEq

/-- Go map read `configMap[configPth]` on a `map[string]string`: an
absent key yields the zero value `""`. -/
def lookupString (m : List (String × String)) (k : String) : String :=
  match m with
  | [] => ""
  | (k', v) :: rest => if k' = k then v else lookupString rest k

/-- Lines 206-227 of part_001 after a successful walk: look the resolved
name up in the detector's config map (zero value on a miss), parse, and
overwrite `config.App.Environments` with the accumulated assignments.
`parseDoc` abstracts `yaml.Unmarshal`. -/
def initManualConfigTail (configMap : List (String × String)) (configPth : String)
    (parseDoc : String → Except String BitriseDataModel)
    (appEnvs : List (String × String)) : Except String BitriseDataModel :=
  let configStr := lookupString configMap configPth
  match parseDoc configStr with
  | .error e => .error ("Failed to unmarshal config, error: " ++ e)
  | .ok config => .ok { config with App := { config.App with Environments := appEnvs } }

/-- Go map read on the walk node's `ValueMap` (first matching key; Go map
keys are unique). -/
def lookupW : List (String × WOption) → String → Option WOption
  | [], _ => none
  | (k, child) :: rest, v => if k = v then some child else lookupW rest v

/-! ## Walk lemmas -/

theorem walkFind_not_found (strat : Strat) (vm : List (String × WOption)) (v cp : String)
    (ac : List (String × String)) (hnone : ∀ p ∈ vm, p.1 ≠ v) :
    walkFind strat vm v cp ac = .ok (cp, ac) := by
  induction vm with
  | nil => simp [walkFind]
  | cons p rest ih =>
    obtain ⟨k, child⟩ := p
    rw [walkFind]
    have hk : k ≠ v := hnone (k, child) (List.mem_cons_self _ _)
    simp only [if_neg hk]
    exact ih fun q hq => hnone q (List.mem_cons_of_mem _ hq)

theorem walkFind_found (strat : Strat) (vm : List (String × WOption)) (v cp : String)
    (ac : List (String × String)) (child : WOption) (hfound : lookupW vm v = some child) :
    walkFind strat vm v cp ac = walkDepth strat child cp ac := by
  induction vm with
  | nil => simp [lookupW] at hfound
  | cons p rest ih =>
    obtain ⟨k, c⟩ := p
    rw [walkFind]
    rw [lookupW] at hfound
    by_cases hk : k = v
    · simp only [if_pos hk] at hfound ⊢
      cases hfound
      rfl
    · simp only [if_neg hk] at hfound ⊢
      exact ih hfound

/-! ## Claim C2 -/

/-- The concrete selection strategy used to refute C2: a non-empty env
key with a selected value absent from the children. -/
def stratC2 : Strat := fun _ => .ok ("KEY", "missing")

/-- The concrete walk tree used to refute C2. -/
def wRootC2 : WOption := .mk "t" "KEY" "" [("a", .mk "" "" "" [] "c")] ""

/-- Claim C2 counterexample: the strategy returns the non-empty env key
`"KEY"` and the value `"missing"`, which has no corresponding child of
`wRootC2`; the walk nevertheless terminates *successfully* (the Go code
executes `return err` with `err == nil`), returning the accumulated
assignment — not a `BrokenRoute` failure. -/
theorem C2_counterexample :
    walkDepth stratC2 wRootC2 "" [] = .ok ("", [("KEY", "missing")]) := by
  simp [walkDepth, walkFind, stratC2, wRootC2, WOption.valueMap]

/-- Claim C2 (amended): whenever the strategy returns a non-empty env key
and a value with no corresponding child, the walk terminates successfully
(nil error) with the pair appended to the assignments and the resolved
config name unchanged; no `BrokenRoute`/`Failed` outcome exists in the
code. -/
theorem C2_amended (strat : Strat) (o : WOption) (cp : String) (ac : List (String × String))
    (k v : String) (hstrat : strat o = .ok (k, v)) (hk : k ≠ "")
    (habsent : ∀ p ∈ o.valueMap, p.1 ≠ v) :
    walkDepth strat o cp ac = .ok (cp, ac ++ [(k, v)]) := by
  rw [walkDepth, hstrat]
  simp only [if_neg hk]
  exact walkFind_not_found _ _ _ _ _ habsent

/-- Claim C2 amended-theorem witness at a concrete input. -/
theorem C2_witness :
    walkDepth stratC2 (.mk "t" "KEY" "" [] "") "start" [("E", "x")]
      = .ok ("start", [("E", "x"), ("KEY", "missing")]) := by
  have h := C2_amended stratC2 (.mk "t" "KEY" "" [] "") "start" [("E", "x")] "KEY" "missing"
    rfl (by decide) (by simp [WOption.valueMap])
  simpa using h

/-! ## Claim C4 -/

/-- The concrete selection strategy used to refute C4: at the root it
returns an empty env key whose selected value *does* match a child key;
at any other node it fails, which makes a second invocation visible. -/
def stratC4 : Strat := fun o =>
  match o with
  | .mk t _ _ _ _ => if t = "root" then .ok ("", "cfg") else .error "x"

/-- The concrete walk tree used to refute C4: the resolved name `"cfg"`
collides with a child key. -/
def wRootC4 : WOption := .mk "root" "" "" [("cfg", .mk "c" "" "" [] "")] ""

/-- Claim C4 counterexample: at `wRootC4` the strategy returns the empty
env key with value `"cfg"`, yet routing does *not* stop: the walk
descends into the child keyed `"cfg"` and invokes the strategy again
(whose error surfaces), contradicting "no further child is visited and no
further strategy invocation occurs". -/
theorem C4_counterexample :
    stratC4 wRootC4 = .ok ("", "cfg") ∧
      walkDepth stratC4 wRootC4 "" [] = .error "Failed to ask for vale, error: x" := by
  constructor
  · rfl
  · simp [walkDepth, walkFind, stratC4, wRootC4, WOption.valueMap]

/-- Claim C4 (amended): when the strategy returns an empty env key with
value `v`, the value is recorded as the resolved config name, and routing
stops at that step *only if* `v` matches no child key; if `v` does match
a child key the walk continues into that child (and the strategy is
invoked again there). -/
theorem C4_amended (strat : Strat) (o : WOption) (cp : String) (ac : List (String × String))
    (v : String) (hstrat : strat o = .ok ("", v)) :
    ((∀ p ∈ o.valueMap, p.1 ≠ v) → walkDepth strat o cp ac = .ok (v, ac)) ∧
      (∀ child, lookupW o.valueMap v = some child →
        walkDepth strat o cp ac = walkDepth strat child v ac) := by
  constructor
  · intro habsent
    rw [walkDepth, hstrat]
    simp only [if_pos rfl]
    exact walkFind_not_found _ _ _ _ _ habsent
  · intro child hfound
    rw [walkDepth, hstrat]
    simp only [if_pos rfl]
    exact walkFind_found _ _ _ _ _ _ hfound

/-- Claim C4 amended-theorem witness at a concrete input. -/
theorem C4_witness :
    walkDepth (fun _ => .ok ("", "resolved")) (.mk "q" "" "" [("a", .mk "" "" "" [] "c")] "")
      "" [("E", "x")] = .ok ("resolved", [("E", "x")]) := by
  have h := C4_amended (fun _ => .ok ("", "resolved"))
    (.mk "q" "" "" [("a", .mk "" "" "" [] "c")] "") "" [("E", "x")] "resolved" rfl
  exact h.1 (by simp [WOption.valueMap])

/-! ## Claim C3 -/

theorem lookupString_not_found (m : List (String × String)) (k : String)
    (habsent : ∀ p ∈ m, p.1 ≠ k) : lookupString m k = "" := by
  induction m with
  | nil => rfl
  | cons p rest ih =>
    obtain ⟨k', v⟩ := p
    rw [lookupString]
    have hk : k' ≠ k := habsent (k', v) (List.mem_cons_self _ _)
    simp only [if_neg hk]
    exact ih fun q hq => habsent q (List.mem_cons_of_mem _ hq)

/-- The zero value of `BitriseDataModel`, which `yaml.Unmarshal` leaves in
place when given the empty document. -/
def docZero : BitriseDataModel :=
  { FormatVersion := "", DefaultStepLibSource := ""
    App := { Environments := [], OtherApp := "" }, TriggerMap := "", Workflows := "" }

/-- The concrete parser used to refute C3.  Modelled from the external
`yaml.Unmarshal` contract: unmarshalling the empty (zero-value) document
succeeds and leaves the target at its zero value. -/
def parseC3 : String → Except String BitriseDataModel := fun s =>
  if s = "" then .ok docZero else .error "unexpected document"

/-- Claim C3 counterexample: the resolved name `"missing"` is absent from
the detector's document map, yet the synthesizer does not fail with a
`MissingDocument` error: the Go map read yields the zero value `""`,
`yaml.Unmarshal` of the empty document succeeds, and a finalized document
(the zero document with the assignments injected) is produced and
emitted. -/
theorem C3_counterexample :
    initManualConfigTail [("android", "format_version: 5")] "missing" parseC3 [("K", "V")]
      = .ok { docZero with App := { docZero.App with Environments := [("K", "V")] } } := by
  simp [initManualConfigTail, lookupString, parseC3]

/-- Claim C3 (amended): when the resolved config name is absent from the
document map, the synthesizer does not fail with a `MissingDocument`
error; it proceeds with the map's zero value `""`, so its outcome is
exactly that of parsing the empty document and injecting the assignments
into the result. -/
theorem C3_amended (m : List (String × String)) (name : String)
    (parseDoc : String → Except String BitriseDataModel) (envs : List (String × String))
    (habsent : ∀ p ∈ m, p.1 ≠ name) :
    initManualConfigTail m name parseDoc envs =
      match parseDoc "" with
      | .error e => .error ("Failed to unmarshal config, error: " ++ e)
      | .ok d => .ok { d with App := { d.App with Environments := envs } } := by
  rw [initManualConfigTail, lookupString_not_found m name habsent]

/-- Claim C3 amended-theorem witness at a concrete input. -/
theorem C3_witness :
    initManualConfigTail [("ios", "doc")] "absent" parseC3 []
      = .ok { docZero with App := { docZero.App with Environments := [] } } := by
  have h := C3_amended [("ios", "doc")] "absent" parseC3 [] (by decide)
  simpa [parseC3] using h

/-! ## Claim C9 -/

/-- Claim C9: for every successfully parsed document, the synthesizer
replaces the document's application-level environment block wholesale
with the accumulated assignments and leaves every other field of the
document unchanged. -/
theorem C9_env_replaced_wholesale (m : List (String × String)) (name : String)
    (parseDoc : String → Except String BitriseDataModel) (envs : List (String × String))
    (d : BitriseDataModel) (hparse : parseDoc (lookupString m name) = .ok d) :
    ∃ out, initManualConfigTail m name parseDoc envs = .ok out ∧
      out.App.Environments = envs ∧
      out.FormatVersion = d.FormatVersion ∧
      out.DefaultStepLibSource = d.DefaultStepLibSource ∧
      out.TriggerMap = d.TriggerMap ∧
      out.Workflows = d.Workflows ∧
      out.App.OtherApp = d.App.OtherApp := by
  refine ⟨{ d with App := { d.App with Environments := envs } }, ?_, rfl, rfl, rfl, rfl, rfl, rfl⟩
  rw [initManualConfigTail, hparse]

/-- Claim C9 witness at a concrete input. -/
theorem C9_witness :
    initManualConfigTail [("cfg", "")] "cfg"
        (fun _ => .ok { docZero with Workflows := "w" }) [("A", "1")] =
      .ok ⟨"", "", ⟨[("A", "1")], ""⟩, "", "w"⟩ := by
  obtain ⟨out, h1, h2, h3, h4, h5, h6, h7⟩ := C9_env_replaced_wholesale [("cfg", "")] "cfg"
    (fun _ => .ok { docZero with Workflows := "w" }) [("A", "1")]
    { docZero with Workflows := "w" } rfl
  rw [h1]
  obtain ⟨fv, dsl, app, tm, wf⟩ := out
  obtain ⟨envs, oa⟩ := app
  simp_all [docZero]

/-! ## The effect of the config-clearing loops on the heap

`RemoveConfigs` only ever sets `Config` fields to `""`; `ClearRel h h'`
says `h'` is `h` with the `Config` field of some nodes cleared.  It is
the frame relation of `clearChildren`/`clearLoop`. -/

/-- `h'` agrees with `h` except that some nodes' `Config` was cleared. -/
def ClearRel (h h' : Heap) : Prop :=
  ∀ a : Addr, h'[a]? = h[a]? ∨
    ∃ n : OptionModel, h[a]? = some n ∧ h'[a]? = some { n with Config := "" }

theorem ClearRel.refl (h : Heap) : ClearRel h h := fun _ => Or.inl rfl

theorem ClearRel.trans {h1 h2 h3 : Heap} (r12 : ClearRel h1 h2) (r23 : ClearRel h2 h3) :
    ClearRel h1 h3 := by
  intro a
  rcases r23 a with h23 | ⟨n2, hn2, hn2'⟩
  · rcases r12 a with h12 | ⟨n1, hn1, hn1'⟩
    · exact Or.inl (h23.trans h12)
    · exact Or.inr ⟨n1, hn1, h23.trans hn1'⟩
  · rcases r12 a with h12 | ⟨n1, hn1, hn1'⟩
    · exact Or.inr ⟨n2, h12 ▸ hn2, hn2'⟩
    · rw [hn1'] at hn2
      cases hn2
      exact Or.inr ⟨n1, hn1, hn2'⟩

theorem ClearRel.isSome {h h' : Heap} (r : ClearRel h h') (a : Addr) :
    (h'[a]?).isSome = (h[a]?).isSome := by
  rcases r a with heq | ⟨n, hn, hn'⟩
  · rw [heq]
  · rw [hn, hn']
    rfl

theorem ClearRel.length {h h' : Heap} (r : ClearRel h h') : h'.length = h.length := by
  apply Nat.le_antisymm
  · by_contra hx
    push_neg at hx
    have h2 : h[h.length]? = none := List.getElem?_eq_none (Nat.le_refl _)
    have h1 := r.isSome h.length
    rw [h2] at h1
    cases hg : h'[h.length]? with
    | none =>
      have := List.getElem?_eq_none_iff.mp hg
      omega
    | some v => rw [hg] at h1; simp at h1
  · by_contra hx
    push_neg at hx
    have h2 : h'[h'.length]? = none := List.getElem?_eq_none (Nat.le_refl _)
    have h1 := r.isSome h'.length
    rw [h2] at h1
    cases hg : h[h'.length]? with
    | none =>
      have := List.getElem?_eq_none_iff.mp hg
      omega
    | some v => rw [hg] at h1; simp at h1

/-- A node's children map survives the clearing loops unchanged. -/
theorem ClearRel.children {h h' : Heap} (r : ClearRel h h') (a : Addr) (n : OptionModel)
    (hn : h[a]? = some n) :
    ∃ n' : OptionModel, h'[a]? = some n' ∧
      n'.ChildOptionMap = n.ChildOptionMap ∧ n'.Title = n.Title ∧ n'.EnvKey = n.EnvKey ∧
      (n'.Config = n.Config ∨ n'.Config = "") := by
  rcases r a with heq | ⟨m, hm, hm'⟩
  · exact ⟨n, heq.trans hn, rfl, rfl, rfl, Or.inl rfl⟩
  · rw [hn] at hm
    cases hm
    exact ⟨_, hm', rfl, rfl, rfl, Or.inr rfl⟩

theorem clearChildren_rel (m : List (String × Option Addr)) :
    ∀ (h h' : Heap), clearChildren h m = some h' → ClearRel h h' := by
  induction m with
  | nil =>
    intro h h' hc
    rw [clearChildren] at hc
    cases hc
    exact ClearRel.refl h
  | cons p rest ih =>
    intro h h' hc
    obtain ⟨k, c⟩ := p
    match c with
    | none => rw [clearChildren] at hc; cases hc
    | some ca =>
      rw [clearChildren] at hc
      cases hca : h[ca]? with
      | none => simp [hca] at hc
      | some n =>
        simp only [hca] at hc
        have step : ClearRel h (h.set ca { n with Config := "" }) := by
          intro a
          by_cases hac : a = ca
          · subst hac
            right
            refine ⟨n, hca, ?_⟩
            have hlt : a < h.length := by
              by_contra hge
              push_neg at hge
              rw [List.getElem?_eq_none hge] at hca
              cases hca
            rw [List.getElem?_set_self hlt]
          · left
            rw [List.getElem?_set_ne (Ne.symm hac)]
        exact step.trans (ih _ _ hc)

theorem clearLoop_rel (L : List Addr) :
    ∀ (h h' : Heap), clearLoop h L = some h' → ClearRel h h' := by
  induction L with
  | nil =>
    intro h h' hc
    rw [clearLoop] at hc
    cases hc
    exact ClearRel.refl h
  | cons lc rest ih =>
    intro h h' hc
    rw [clearLoop] at hc
    cases hlc : h[lc]? with
    | none => simp [hlc] at hc
    | some n =>
      cases hcc : clearChildren h n.ChildOptionMap with
      | none => simp [hlc, hcc] at hc
      | some h1 =>
        simp only [hlc, hcc] at hc
        exact (clearChildren_rel _ _ _ hcc).trans (ih _ _ hc)

/-! ## Claim C10 -/

/-- A nil entry anywhere in the map makes the clearing loop panic. -/
theorem clearChildren_none_of_nil (k : String) :
    ∀ (m : List (String × Option Addr)) (h : Heap), (k, none) ∈ m → clearChildren h m = none := by
  intro m
  induction m with
  | nil => intro h hm; cases hm
  | cons p rest ih =>
    intro h hm
    obtain ⟨k', c⟩ := p
    match c with
    | none => rw [clearChildren]
    | some ca =>
      have hmem : (k, (none : Option Addr)) ∈ rest := by
        cases hm with
        | tail _ hm' => exact hm'
      rw [clearChildren]
      cases hca : h[ca]? with
      | none => rfl
      | some n => exact ih _ hmem

theorem clearLoop_none_of_nil (h : Heap) (lc : Addr) (n : OptionModel) (k : String)
    (hlc : h[lc]? = some n) (hnil : (k, none) ∈ n.ChildOptionMap) :
    ∀ (L : List Addr) (h' : Heap), ClearRel h h' → lc ∈ L → clearLoop h' L = none := by
  intro L
  induction L with
  | nil => intro h' _ hm; cases hm
  | cons x rest ih =>
    intro h' hrel hm
    rw [clearLoop]
    cases hx : h'[x]? with
    | none => rfl
    | some nx =>
      by_cases hxlc : x = lc
      · subst hxlc
        obtain ⟨n', hn', hch, _, _, _⟩ := hrel.children x n hlc
        rw [hx] at hn'
        cases hn'
        simp [clearChildren_none_of_nil k _ _ (hch ▸ hnil)]
      · cases hcc : clearChildren h' nx.ChildOptionMap with
        | none => simp [hcc]
        | some h1 =>
          have hm' : lc ∈ rest := by
            cases hm with
            | head => exact absurd rfl hxlc
            | tail _ hm' => exact hm'
          simp only [hcc]
          exact ih h1 (hrel.trans (clearChildren_rel _ _ _ hcc)) hm'

/-- Claim C10: on every tree in which some last-child node's children map
contains a nil entry, `RemoveConfigs` dereferences that nil child while
clearing `configName` and panics (result `none`), even though the
last-child collection itself succeeded. -/
theorem C10_removeconfigs_panics_on_nil (fuel : Nat) (h : Heap) (a : Addr) (L : List Addr)
    (lc : Addr) (n : OptionModel) (k : String)
    (hlast : lastChildsGo h fuel a = some L) (hmem : lc ∈ L)
    (hlc : h[lc]? = some n) (hnil : (k, none) ∈ n.ChildOptionMap) :
    RemoveConfigs fuel h a = none := by
  rw [RemoveConfigs, hlast]
  exact clearLoop_none_of_nil h lc n k hlc hnil L h (ClearRel.refl h) hmem

/-- The concrete heap witnessing C10: the root's children map holds a nil
entry, so the root is a last child and clearing panics. -/
def hC10 : Heap := [⟨"r", "k", "", [("a", none)], "", [], none⟩]

/-- Claim C10 witness at a concrete input. -/
theorem C10_witness : RemoveConfigs 9 hC10 0 = none := by
  apply C10_removeconfigs_panics_on_nil 9 hC10 0 [0] 0 ⟨"r", "k", "", [("a", none)], "", [], none⟩ "a"
  · simp [lastChildsGo, lastChildsScan, hC10]
  · simp
  · rfl
  · simp

/-! ## Claim C8 -/

/-- The terminal predicate `LastChilds` tests on one children-map entry:
a nil entry trips, otherwise the pointed-to node trips iff it is a config
node or an empty placeholder.  `none` marks a dangling address (never
produced by the Go API). -/
def tripsEntry (h : Heap) : Option Addr → Option Bool
  | none => some true
  | some c =>
    match h[c]? with
    | none => none
    | some cn => some (cn.IsConfigOption || cn.IsEmpty)

/-- Specification-side collector, following the claim's words: recurse
into each child in scan order and concatenate the recursive collections
(`none` propagates divergence/dangling, and a nil entry has no recursive
collection). -/
def collectChilds (h : Heap) (fuel : Nat) : List (String × Option Addr) → Option (List Addr)
  | [] => some []
  | (_, c) :: rest =>
    match c.bind (lastChildsGo h fuel) with
    | none => none
    | some l =>
      match collectChilds h fuel rest with
      | none => none
      | some r => some (l ++ r)

theorem lastChildsScan_split (h : Heap) (fuel : Nat) (a : Addr) :
    ∀ (cs₁ : List (String × Option Addr)) (k : String) (c : Option Addr)
      (cs₂ : List (String × Option Addr)),
      tripsEntry h c = some true →
      (∀ p ∈ cs₁, tripsEntry h p.2 = some false) →
      lastChildsScan h fuel a (cs₁ ++ (k, c) :: cs₂) =
        (collectChilds h fuel cs₁).map (fun ls => ls ++ [a]) := by
  intro cs₁
  induction cs₁ with
  | nil =>
    intro k c cs₂ htrip _
    match c with
    | none =>
      rw [List.nil_append, lastChildsScan]
      simp [collectChilds]
    | some ca =>
      rw [tripsEntry] at htrip
      cases hca : h[ca]? with
      | none => simp [hca] at htrip
      | some cn =>
        simp only [hca, Option.some.injEq] at htrip
        rw [List.nil_append, lastChildsScan]
        simp only [hca]
        cases hcfg : cn.IsConfigOption with
        | true => simp [hcfg, collectChilds]
        | false =>
          rw [hcfg] at htrip
          simp only [Bool.false_or] at htrip
          simp [hcfg, htrip, collectChilds]
  | cons p rest ih =>
    intro k c cs₂ htrip hall
    obtain ⟨k', c'⟩ := p
    have hp := hall (k', c') (List.mem_cons_self _ _)
    match c' with
    | none => simp [tripsEntry] at hp
    | some ca' =>
      rw [tripsEntry] at hp
      cases hca' : h[ca']? with
      | none => simp [hca'] at hp
      | some cn' =>
        simp only [hca', Option.some.injEq] at hp
        have hcfg : cn'.IsConfigOption = false := by
          cases hb : cn'.IsConfigOption with
          | false => rfl
          | true => rw [hb] at hp; simp at hp
        have hemp : cn'.IsEmpty = false := by
          cases hb : cn'.IsEmpty with
          | false => rfl
          | true => rw [hb] at hp; simp at hp
        rw [List.cons_append, lastChildsScan]
        simp only [hca', hcfg, hemp, Bool.false_eq_true, if_false]
        rw [collectChilds]
        simp only [Option.some_bind]
        cases hgo : lastChildsGo h fuel ca' with
        | none => rfl
        | some l =>
          rw [ih k c cs₂ htrip fun q hq => hall q (List.mem_cons_of_mem _ hq)]
          cases hrest : collectChilds h fuel rest with
          | none => rfl
          | some ls => simp

theorem lastChildsScan_all (h : Heap) (fuel : Nat) (a : Addr) :
    ∀ cs : List (String × Option Addr),
      (∀ p ∈ cs, tripsEntry h p.2 = some false) →
      lastChildsScan h fuel a cs = collectChilds h fuel cs := by
  intro cs
  induction cs with
  | nil =>
    intro _
    rw [lastChildsScan, collectChilds]
  | cons p rest ih =>
    intro hall
    obtain ⟨k', c'⟩ := p
    have hp := hall (k', c') (List.mem_cons_self _ _)
    match c' with
    | none => simp [tripsEntry] at hp
    | some ca' =>
      rw [tripsEntry] at hp
      cases hca' : h[ca']? with
      | none => simp [hca'] at hp
      | some cn' =>
        simp only [hca', Option.some.injEq] at hp
        have hcfg : cn'.IsConfigOption = false := by
          cases hb : cn'.IsConfigOption with
          | false => rfl
          | true => rw [hb] at hp; simp at hp
        have hemp : cn'.IsEmpty = false := by
          cases hb : cn'.IsEmpty with
          | false => rfl
          | true => rw [hb] at hp; simp at hp
        rw [lastChildsScan]
        simp only [hca', hcfg, hemp, Bool.false_eq_true, if_false]
        rw [collectChilds]
        simp only [Option.some_bind]
        rw [ih fun q hq => hall q (List.mem_cons_of_mem _ hq)]

/-- Claim C8: `LastChilds` collects exactly per the asymmetric terminal
predicate.  (i) A node with no children is recorded alone.  (ii) During
the scan of a node's children, if a prefix `cs₁` of non-tripping children
is followed by a tripping entry (nil, config, or empty), the result is
the recursive collection over `cs₁` followed by the *current* node `a`,
and the remaining children `cs₂` are never examined (they do not occur in
the result formula).  (iii) If the node has children and none of them
trips, the node itself is not recorded: the result is exactly the
concatenation of the recursive collections over all children. -/
theorem C8_lastchilds_characterization (h : Heap) (fuel : Nat) (a : Addr) (n : OptionModel)
    (hn : h[a]? = some n) :
    (n.ChildOptionMap = [] → lastChildsGo h (fuel + 1) a = some [a]) ∧
      (∀ (cs₁ : List (String × Option Addr)) (k : String) (c : Option Addr)
        (cs₂ : List (String × Option Addr)),
        n.ChildOptionMap = cs₁ ++ (k, c) :: cs₂ →
        tripsEntry h c = some true →
        (∀ p ∈ cs₁, tripsEntry h p.2 = some false) →
        lastChildsGo h (fuel + 1) a =
          (collectChilds h fuel cs₁).map (fun ls => ls ++ [a])) ∧
      (n.ChildOptionMap ≠ [] →
        (∀ p ∈ n.ChildOptionMap, tripsEntry h p.2 = some false) →
        lastChildsGo h (fuel + 1) a = collectChilds h fuel n.ChildOptionMap) := by
  refine ⟨?_, ?_, ?_⟩
  · intro hempty
    rw [lastChildsGo]
    simp [hn, hempty]
  · intro cs₁ k c cs₂ hsplit htrip hall
    have hne : (cs₁ ++ (k, c) :: cs₂).isEmpty = false := by
      cases cs₁ <;> rfl
    rw [lastChildsGo]
    simp only [hn, hsplit, hne, Bool.false_eq_true, if_false]
    exact lastChildsScan_split h fuel a cs₁ k c cs₂ htrip hall
  · intro hne' hall
    have hne : n.ChildOptionMap.isEmpty = false := by
      cases hmt : n.ChildOptionMap with
      | nil => exact absurd hmt hne'
      | cons p rest => rfl
    rw [lastChildsGo]
    simp only [hn, hne, Bool.false_eq_true, if_false]
    exact lastChildsScan_all h fuel a n.ChildOptionMap hall

/-- The concrete heap for the C8 witness: the root has a non-tripping
first child (a value node over a config grandchild), a tripping second
child (a config node), and a third entry pointing at a dangling address,
which the short-circuit never examines. -/
def hC8 : Heap :=
  [⟨"r", "", "", [("a", some 1), ("b", some 2), ("c", some 99)], "", [], none⟩,
   ⟨"t", "", "", [("x", some 3)], "", [], none⟩,
   ⟨"", "", "", [], "cfg", [], none⟩,
   ⟨"", "", "", [], "cfg2", [], none⟩]

/-- Claim C8 witness at a concrete input: the scan recurses through the
non-tripping child `1` (collecting `[1]`), records the current node `0`
at the tripping config child `2`, and stops before the dangling entry. -/
theorem C8_witness : lastChildsGo hC8 3 0 = some [1, 0] := by
  have hmain := (C8_lastchilds_characterization hC8 2 0
    ⟨"r", "", "", [("a", some 1), ("b", some 2), ("c", some 99)], "", [], none⟩ rfl).2.1
    [("a", some 1)] "b" (some 2) [("c", some 99)] rfl (by decide)
    (by
      intro p hp
      simp only [List.mem_singleton] at hp
      subst hp
      decide)
  norm_num at hmain
  rw [hmain]
  simp [collectChilds, lastChildsGo, lastChildsScan, hC8, OptionModel.IsConfigOption,
    OptionModel.IsEmpty, OptionModel.IsValueOption]

/-! ## Claim C1 -/

theorem childLookup_mapSet (k0 : String) (v0 : Option Addr) :
    ∀ (m : List (String × Option Addr)) (k : String),
      childLookup (mapSet m k0 v0) k = if k0 = k then some v0 else childLookup m k := by
  intro m
  induction m with
  | nil =>
    intro k
    by_cases hk : k0 = k <;> simp [mapSet, childLookup, hk]
  | cons p rest ih =>
    intro k
    obtain ⟨k', v'⟩ := p
    by_cases h1 : k' = k0
    · subst h1
      by_cases h2 : k' = k <;> simp [mapSet, childLookup, h2]
    · by_cases h2 : k' = k
      · subst h2
        have h3 : ¬k0 = k' := fun he => h1 he.symm
        simp [mapSet, childLookup, h1, h3]
      · by_cases h3 : k0 = k
        · subst h3
          simp [mapSet, childLookup, h1, h2, ih]
        · simp [mapSet, childLookup, h1, h2, h3, ih]

/-- The result of `AddOption` node by node, at the level of children
maps: the receiver's map gains the binding, every other node's map is
untouched (the second write of `AddOption` touches only `Components` and
`Head`). -/
theorem AddOption_children (h : Heap) (pa : Addr) (v : String) (c : Option Addr) (addr : Addr) :
    ((AddOption h pa v c)[addr]?).map OptionModel.ChildOptionMap =
      if addr = pa then (h[pa]?).map (fun n => mapSet n.ChildOptionMap v c)
      else (h[addr]?).map OptionModel.ChildOptionMap := by
  rw [AddOption]
  cases hpa : h[pa]? with
  | none =>
    by_cases haddr : addr = pa <;> simp [hpa, haddr]
  | some pnode =>
    have hlt : pa < h.length := by
      by_contra hge
      push_neg at hge
      rw [List.getElem?_eq_none hge] at hpa
      cases hpa
    simp only
    cases c with
    | none =>
      by_cases haddr : addr = pa
      · subst haddr
        simp [List.getElem?_set_self hlt, hpa]
      · simp [List.getElem?_set_ne (Ne.symm haddr), haddr]
    | some na =>
      have hpa1 : (h.set pa
            { pnode with ChildOptionMap := mapSet pnode.ChildOptionMap v (some na) })[pa]?
          = some { pnode with ChildOptionMap := mapSet pnode.ChildOptionMap v (some na) } :=
        List.getElem?_set_self hlt
      cases hna : (h.set pa
          { pnode with ChildOptionMap := mapSet pnode.ChildOptionMap v (some na) })[na]? with
      | none =>
        simp only [hna, hpa1]
        by_cases haddr : addr = pa
        · subst haddr
          simp [List.getElem?_set_self hlt, hpa]
        · simp [List.getElem?_set_ne (Ne.symm haddr), haddr]
      | some nnode =>
        simp only [hna, hpa1]
        have hna_lt : na < h.length := by
          by_contra hge
          push_neg at hge
          rw [List.getElem?_eq_none (by simpa using hge)] at hna
          cases hna
        have hna_lt1 : na < (h.set pa
            { pnode with ChildOptionMap := mapSet pnode.ChildOptionMap v (some na) }).length := by
          rw [List.length_set]
          exact hna_lt
        by_cases haddr : addr = pa
        · subst haddr
          by_cases hnapa : na = addr
          · subst hnapa
            rw [hpa1] at hna
            cases hna
            simp [List.getElem?_set_self hna_lt1, List.getElem?_set_self hlt, hpa]
          · simp [List.getElem?_set_ne hnapa, hpa1, hpa]
        · by_cases hnaddr : na = addr
          · subst hnaddr
            rw [List.getElem?_set_ne (Ne.symm haddr)] at hna
            simp [List.getElem?_set_self hna_lt1, hna, haddr]
          · simp [List.getElem?_set_ne hnaddr, List.getElem?_set_ne (Ne.symm haddr), haddr]

theorem AddOption_length (h : Heap) (pa : Addr) (v : String) (c : Option Addr) :
    (AddOption h pa v c).length = h.length := by
  rw [AddOption]
  repeat' split
  all_goals try simp
  all_goals (split <;> simp)

/-- "Address `e` is bound under key `k` in the children map of the node
at `addr`". -/
def EntryOf (h : Heap) (addr : Addr) (k : String) (e : Option Addr) : Prop :=
  ∃ n : OptionModel, h[addr]? = some n ∧ childLookup n.ChildOptionMap k = some e

theorem AddOption_entry (h : Heap) (pa : Addr) (v : String) (c : Option Addr) (addr : Addr)
    (k : String) (e : Option Addr) (hE : EntryOf (AddOption h pa v c) addr k e) :
    EntryOf h addr k e ∨ e = c := by
  obtain ⟨n', hn', hlk⟩ := hE
  have hch := AddOption_children h pa v c addr
  rw [hn'] at hch
  by_cases haddr : addr = pa
  · rw [if_pos haddr] at hch
    cases hpa : h[pa]? with
    | none => rw [hpa] at hch; cases hch
    | some pnode =>
      rw [hpa] at hch
      simp only [Option.map_some', Option.some.injEq] at hch
      rw [hch, childLookup_mapSet] at hlk
      by_cases hkv : v = k
      · rw [if_pos hkv] at hlk
        right
        exact (Option.some.inj hlk).symm
      · rw [if_neg hkv] at hlk
        left
        exact ⟨pnode, haddr ▸ hpa, hlk⟩
  · rw [if_neg haddr] at hch
    cases ha : h[addr]? with
    | none => rw [ha] at hch; cases hch
    | some m =>
      rw [ha] at hch
      simp only [Option.map_some', Option.some.injEq] at hch
      left
      exact ⟨m, ha, hch ▸ hlk⟩

theorem attachValues_length (lc : Addr) (optA : Option Addr) :
    ∀ (vs : List String) (h : Heap), (attachValues h lc optA vs).length = h.length := by
  intro vs
  induction vs with
  | nil => intro h; rfl
  | cons v rest ih =>
    intro h
    rw [attachValues]
    rw [ih, AddOption_length]

theorem attachValues_entry (lc : Addr) (optA : Option Addr) :
    ∀ (vs : List String) (h : Heap) (addr : Addr) (k : String) (e : Option Addr),
      EntryOf (attachValues h lc optA vs) addr k e → EntryOf h addr k e ∨ e = optA := by
  intro vs
  induction vs with
  | nil => intro h addr k e hE; exact Or.inl hE
  | cons v rest ih =>
    intro h addr k e hE
    rw [attachValues] at hE
    rcases ih _ _ _ _ hE with h1 | h1
    · exact AddOption_entry h lc v optA addr k e h1
    · exact Or.inr h1

theorem attachLoop_length (optA : Option Addr) :
    ∀ (L : List Addr) (h : Heap), (attachLoop h optA L).length = h.length := by
  intro L
  induction L with
  | nil => intro h; rfl
  | cons lc rest ih =>
    intro h
    rw [attachLoop]
    rw [ih, attachValues_length]

theorem attachLoop_entry (optA : Option Addr) :
    ∀ (L : List Addr) (h : Heap) (addr : Addr) (k : String) (e : Option Addr),
      EntryOf (attachLoop h optA L) addr k e → EntryOf h addr k e ∨ e = optA := by
  intro L
  induction L with
  | nil => intro h addr k e hE; exact Or.inl hE
  | cons lc rest ih =>
    intro h addr k e hE
    rw [attachLoop] at hE
    rcases ih _ _ _ _ hE with h1 | h1
    · exact attachValues_entry lc optA _ _ _ _ _ h1
    · exact Or.inr h1

/-- Claim C1 (amended): `AttachToLastChilds` never copies.  It allocates
no node (the heap's node count is unchanged) and every children-map entry
of the result is either an entry that already existed or the argument
pointer `optA` itself — every attachment shares the single argument
subtree, so the attached instances alias one another, and the shared
node's `Components`/`Head` reflect only the last attachment performed
(see the counterexample for that last fact at a concrete input). -/
theorem C1_amended (fuel : Nat) (h : Heap) (a : Addr) (optA : Option Addr) (h' : Heap)
    (hrun : AttachToLastChilds fuel h a optA = some h') :
    h'.length = h.length ∧
      ∀ (addr : Addr) (k : String) (e : Option Addr),
        EntryOf h' addr k e → EntryOf h addr k e ∨ e = optA := by
  rw [AttachToLastChilds] at hrun
  cases hL : lastChildsGo h fuel a with
  | none => rw [hL] at hrun; cases hrun
  | some L =>
    rw [hL] at hrun
    cases hrun
    exact ⟨attachLoop_length optA L h, fun addr k e hE => attachLoop_entry optA L h addr k e hE⟩

/-- The concrete heap refuting C1's independence: the root (a last child,
since its first child is an empty placeholder) offers the two values
`"v1"`, `"v2"`; node `3` is the subtree argument. -/
def hC1 : Heap :=
  [⟨"t", "k", "", [("v1", some 1), ("v2", some 2)], "", [], none⟩,
   ⟨"", "", "", [], "", ["v1"], some 0⟩,
   ⟨"", "", "", [], "", ["v2"], some 0⟩,
   ⟨"s", "e", "", [], "", [], none⟩]

/-- Claim C1 counterexample: after `AttachToLastChilds(root, sub)` on
`hC1`, the entries under `"v1"` and `"v2"` are the *same* address `3`
(the argument itself — full aliasing, no structural copies), and the
shared node's `Components` is `["v2"]`: it reflects only the last
attachment, so the instance attached under `"v1"` does not carry a path
matching its position. -/
theorem C1_counterexample :
    (AttachToLastChilds 10 hC1 0 (some 3)).map (fun h' =>
        ((h'[0]?).map (fun n => (childLookup n.ChildOptionMap "v1",
                                 childLookup n.ChildOptionMap "v2")),
         (h'[3]?).map OptionModel.Components,
         (h'[3]?).map OptionModel.Head)) =
      some (some (some (some 3), some (some 3)), some ["v2"], some (some 0)) := by
  have hL : lastChildsGo hC1 10 0 = some [0] := by
    simp [lastChildsGo, lastChildsScan, hC1, OptionModel.IsConfigOption, OptionModel.IsEmpty,
      OptionModel.IsValueOption]
  rw [AttachToLastChilds]
  simp only [hL]
  rfl

/-- Claim C1 amended-theorem witness at a concrete input. -/
theorem C1_witness :
    (attachLoop hC1 (some 3) [0]).length = hC1.length ∧
      (EntryOf hC1 0 "v2" (some 3) ∨ (some 3 : Option Addr) = some 3) := by
  have hL : lastChildsGo hC1 10 0 = some [0] := by
    simp [lastChildsGo, lastChildsScan, hC1, OptionModel.IsConfigOption, OptionModel.IsEmpty,
      OptionModel.IsValueOption]
  have hrun : AttachToLastChilds 10 hC1 0 (some 3) = some (attachLoop hC1 (some 3) [0]) := by
    rw [AttachToLastChilds]
    simp only [hL]
  have h := C1_amended 10 hC1 0 (some 3) (attachLoop hC1 (some 3) [0]) hrun
  refine ⟨h.1, h.2 0 "v2" (some 3) ?_⟩
  exact ⟨⟨"t", "k", "", [("v1", some 3), ("v2", some 3)], "", [], none⟩, rfl, rfl⟩

/-! ## Claim C6 -/

/-- The §3 mutual-exclusivity invariant: no node carries both a title and
a config name. -/
def TitleConfigInv (h : Heap) : Prop :=
  ∀ (a : Addr) (n : OptionModel), h[a]? = some n → n.Title = "" ∨ n.Config = ""

theorem clearedNode_eq (n : OptionModel) (hcfg : n.Config = "") :
    { n with Config := "" } = n := by
  cases n
  simp_all

theorem getElem?_isSome_iff {α : Type} (l : List α) (i : Nat) :
    (l[i]?).isSome = true ↔ i < l.length := by
  constructor
  · intro hs
    by_contra hge
    push_neg at hge
    rw [List.getElem?_eq_none hge] at hs
    simp at hs
  · intro hlt
    rw [List.getElem?_eq_getElem hlt]
    rfl

theorem set_same {α : Type} : ∀ (l : List α) (i : Nat) (x : α), l[i]? = some x → l.set i x = l := by
  intro l
  induction l with
  | nil => intro i x hx; simp at hx
  | cons y ys ih =>
    intro i x hx
    cases i with
    | zero =>
      simp only [List.getElem?_cons_zero, Option.some.injEq] at hx
      subst hx
      rfl
    | succ i =>
      simp only [List.getElem?_cons_succ] at hx
      show y :: ys.set i x = y :: ys
      rw [ih i x hx]

/-- `lastChildsScan` is unchanged by clearing configs, provided the
mutual-exclusivity invariant held: a cleared config node becomes an empty
placeholder and still trips the terminal predicate. -/
theorem lastChildsScan_congr (h h' : Heap) (r : ClearRel h h') (hinv : TitleConfigInv h)
    (fuel : Nat) (ihgo : ∀ b : Addr, lastChildsGo h' fuel b = lastChildsGo h fuel b) :
    ∀ (cs : List (String × Option Addr)) (a : Addr),
      lastChildsScan h' fuel a cs = lastChildsScan h fuel a cs := by
  intro cs
  induction cs with
  | nil => intro a; rw [lastChildsScan, lastChildsScan]
  | cons p rest ih =>
    intro a
    obtain ⟨k, c⟩ := p
    match c with
    | none => rw [lastChildsScan, lastChildsScan]
    | some ca =>
      rw [lastChildsScan, lastChildsScan]
      rcases r ca with heq | ⟨n, hn, hn'⟩
      · rw [heq]
        cases hca : h[ca]? with
        | none => rfl
        | some cn => simp only [hca, ihgo, ih]
      · rw [hn, hn']
        by_cases hcfg : n.Config = ""
        · rw [clearedNode_eq n hcfg]
          simp only [ihgo, ih]
        · have htitle : n.Title = "" := (hinv ca n hn).resolve_right hcfg
          have h1 : n.IsConfigOption = true := by
            simp [OptionModel.IsConfigOption, hcfg]
          have h2 : ({ n with Config := "" } : OptionModel).IsConfigOption = false := by
            simp [OptionModel.IsConfigOption]
          have h3 : ({ n with Config := "" } : OptionModel).IsEmpty = true := by
            simp [OptionModel.IsEmpty, OptionModel.IsValueOption, OptionModel.IsConfigOption,
              htitle]
          simp [h1, h2, h3]

theorem lastChildsGo_congr (h h' : Heap) (r : ClearRel h h') (hinv : TitleConfigInv h) :
    ∀ (fuel : Nat) (a : Addr), lastChildsGo h' fuel a = lastChildsGo h fuel a := by
  intro fuel
  induction fuel with
  | zero => intro a; rw [lastChildsGo, lastChildsGo]
  | succ fuel ih =>
    intro a
    rw [lastChildsGo, lastChildsGo]
    rcases r a with heq | ⟨n, hn, hn'⟩
    · rw [heq]
      cases hca : h[a]? with
      | none => rfl
      | some nn =>
        simp only [hca]
        cases hmt : nn.ChildOptionMap.isEmpty <;>
          simp [hmt, lastChildsScan_congr h h' r hinv fuel ih]
    · rw [hn, hn']
      cases hmt : n.ChildOptionMap.isEmpty <;>
        simp [hmt, lastChildsScan_congr h h' r hinv fuel ih]

/-- Every last child handed to the clearing loop was dereferenced by it. -/
theorem clearLoop_mem : ∀ (L : List Addr) (h h' : Heap), clearLoop h L = some h' →
    ∀ lc ∈ L, (h[lc]?).isSome = true := by
  intro L
  induction L with
  | nil => intro h h' _ lc hm; cases hm
  | cons x rest ih =>
    intro h h' hc lc hm
    rw [clearLoop] at hc
    cases hx : h[x]? with
    | none => simp [hx] at hc
    | some nx =>
      cases hcc : clearChildren h nx.ChildOptionMap with
      | none => simp [hx, hcc] at hc
      | some h1 =>
        simp only [hx, hcc] at hc
        cases hm with
        | head => rw [hx]; rfl
        | tail _ hm' =>
          have := ih h1 h' hc lc hm'
          rw [(clearChildren_rel _ _ _ hcc).isSome lc] at this
          exact this

/-- A single config-clearing write is a `ClearRel` step. -/
theorem clearSet_rel (h : Heap) (ca : Addr) (n : OptionModel) (hget : h[ca]? = some n) :
    ClearRel h (h.set ca { n with Config := "" }) := by
  intro a
  by_cases hac : a = ca
  · subst hac
    right
    refine ⟨n, hget, ?_⟩
    have hlt : a < h.length := (getElem?_isSome_iff h a).mp (by rw [hget]; rfl)
    rw [List.getElem?_set_self hlt]
  · left
    rw [List.getElem?_set_ne (Ne.symm hac)]

/-- Every entry the clearing loop walked over is a non-nil pointer to a
live node. -/
theorem clearChildren_entries : ∀ (m : List (String × Option Addr)) (h h' : Heap),
    clearChildren h m = some h' →
    ∀ p ∈ m, ∃ ca : Addr, p.2 = some ca ∧ (h[ca]?).isSome = true := by
  intro m
  induction m with
  | nil => intro h h' _ p hp; cases hp
  | cons q rest ih =>
    intro h h' hc p hp
    obtain ⟨k', c'⟩ := q
    match c' with
    | none => rw [clearChildren] at hc; cases hc
    | some ca =>
      rw [clearChildren] at hc
      cases hget : h[ca]? with
      | none => simp [hget] at hc
      | some n =>
        simp only [hget] at hc
        cases hp with
        | head => exact ⟨ca, rfl, by rw [hget]; rfl⟩
        | tail _ hp' =>
          obtain ⟨ca', hca', hsome⟩ := ih _ _ hc p hp'
          rw [(clearSet_rel h ca n hget).isSome ca'] at hsome
          exact ⟨ca', hca', hsome⟩

theorem clearLoop_entries : ∀ (L : List Addr) (h h' : Heap), clearLoop h L = some h' →
    ∀ lc ∈ L, ∀ n : OptionModel, h[lc]? = some n →
    ∀ p ∈ n.ChildOptionMap, ∃ ca : Addr, p.2 = some ca ∧ (h[ca]?).isSome = true := by
  intro L
  induction L with
  | nil => intro h h' _ lc hm; cases hm
  | cons x rest ih =>
    intro h h' hc lc hm n hn p hp
    rw [clearLoop] at hc
    cases hx : h[x]? with
    | none => simp [hx] at hc
    | some nx =>
      cases hcc : clearChildren h nx.ChildOptionMap with
      | none => simp [hx, hcc] at hc
      | some h1 =>
        simp only [hx, hcc] at hc
        have R1 : ClearRel h h1 := clearChildren_rel _ _ _ hcc
        cases hm with
        | head =>
          rw [hx] at hn
          cases hn
          exact clearChildren_entries _ _ _ hcc p hp
        | tail _ hm' =>
          obtain ⟨n1, hn1, hch, _, _, _⟩ := R1.children lc n hn
          obtain ⟨ca, hca, hsome⟩ := ih h1 h' hc lc hm' n1 hn1 p (hch ▸ hp)
          rw [R1.isSome ca] at hsome
          exact ⟨ca, hca, hsome⟩

/-- Clearing clears: after `clearChildren`, every entry of the walked map
points at a node with empty `Config` in the final heap. -/
theorem clearChildren_clears : ∀ (m : List (String × Option Addr)) (h h' : Heap),
    clearChildren h m = some h' →
    ∀ (k : String) (c : Addr), (k, some c) ∈ m →
    ∃ n' : OptionModel, h'[c]? = some n' ∧ n'.Config = "" := by
  intro m
  induction m with
  | nil => intro h h' _ k c hm; cases hm
  | cons q rest ih =>
    intro h h' hc k c hm
    obtain ⟨k', c'⟩ := q
    match c' with
    | none => rw [clearChildren] at hc; cases hc
    | some ca =>
      rw [clearChildren] at hc
      cases hget : h[ca]? with
      | none => simp [hget] at hc
      | some n =>
        simp only [hget] at hc
        cases hm with
        | head =>
          have hlt : c < h.length := (getElem?_isSome_iff h c).mp (by rw [hget]; rfl)
          have hset : (h.set c { n with Config := "" })[c]? = some { n with Config := "" } :=
            List.getElem?_set_self hlt
          obtain ⟨n', hn', _, _, _, hcfg⟩ :=
            (clearChildren_rel _ _ _ hc).children c { n with Config := "" } hset
          refine ⟨n', hn', ?_⟩
          rcases hcfg with hcfg | hcfg
          · exact hcfg
          · exact hcfg
        | tail _ hm' => exact ih _ _ hc k c hm'

theorem clearLoop_clears : ∀ (L : List Addr) (h h' : Heap), clearLoop h L = some h' →
    ∀ lc ∈ L, ∀ n : OptionModel, h[lc]? = some n →
    ∀ (k : String) (c : Addr), (k, some c) ∈ n.ChildOptionMap →
    ∃ n' : OptionModel, h'[c]? = some n' ∧ n'.Config = "" := by
  intro L
  induction L with
  | nil => intro h h' _ lc hm; cases hm
  | cons x rest ih =>
    intro h h' hc lc hm n hn k c hp
    rw [clearLoop] at hc
    cases hx : h[x]? with
    | none => simp [hx] at hc
    | some nx =>
      cases hcc : clearChildren h nx.ChildOptionMap with
      | none => simp [hx, hcc] at hc
      | some h1 =>
        simp only [hx, hcc] at hc
        have R1 : ClearRel h h1 := clearChildren_rel _ _ _ hcc
        have R2 : ClearRel h1 h' := clearLoop_rel _ _ _ hc
        cases hm with
        | head =>
          rw [hx] at hn
          cases hn
          obtain ⟨n1, hn1, hcfg1⟩ := clearChildren_clears _ _ _ hcc k c hp
          obtain ⟨n', hn', _, _, _, hcfg⟩ := R2.children c n1 hn1
          refine ⟨n', hn', ?_⟩
          rcases hcfg with hcfg | hcfg
          · rw [hcfg, hcfg1]
          · exact hcfg
        | tail _ hm' =>
          obtain ⟨n1, hn1, hch, _, _, _⟩ := R1.children lc n hn
          exact ih h1 h' hc lc hm' n1 hn1 k c (hch ▸ hp)

/-- Clearing an already-clear map rewrites nothing. -/
theorem clearChildren_noop : ∀ (m : List (String × Option Addr)) (h : Heap),
    (∀ p ∈ m, ∃ (ca : Addr) (n : OptionModel),
      p.2 = some ca ∧ h[ca]? = some n ∧ n.Config = "") →
    clearChildren h m = some h := by
  intro m
  induction m with
  | nil => intro h _; rfl
  | cons q rest ih =>
    intro h hall
    obtain ⟨k', c'⟩ := q
    obtain ⟨ca, n, hca, hget, hcfg⟩ := hall (k', c') (List.mem_cons_self _ _)
    simp only at hca
    subst hca
    rw [clearChildren]
    simp only [hget]
    rw [clearedNode_eq n hcfg, set_same h ca n hget]
    exact ih h fun p hp => hall p (List.mem_cons_of_mem _ hp)

theorem clearLoop_noop : ∀ (L : List Addr) (h : Heap),
    (∀ lc ∈ L, ∃ n : OptionModel, h[lc]? = some n ∧
      ∀ p ∈ n.ChildOptionMap, ∃ (ca : Addr) (n2 : OptionModel),
        p.2 = some ca ∧ h[ca]? = some n2 ∧ n2.Config = "") →
    clearLoop h L = some h := by
  intro L
  induction L with
  | nil => intro h _; rfl
  | cons x rest ih =>
    intro h hall
    obtain ⟨n, hn, hch⟩ := hall x (List.mem_cons_self _ _)
    rw [clearLoop]
    simp only [hn, clearChildren_noop n.ChildOptionMap h hch]
    exact ih h fun lc hm => hall lc (List.mem_cons_of_mem _ hm)

/-- Claim C6 (amended): on a tree satisfying the title/config
mutual-exclusivity invariant whose clearing run succeeds (in particular,
whose last-child nodes have only non-nil immediate children),
`RemoveConfigs` clears `configName` on every immediate child of every
last-child node, and it is idempotent: a second run returns the heap
unchanged. -/
theorem C6_removeconfigs_clears_and_idempotent (fuel : Nat) (h : Heap) (a : Addr)
    (L : List Addr) (h₁ : Heap) (hinv : TitleConfigInv h)
    (hlast : lastChildsGo h fuel a = some L) (hclear : clearLoop h L = some h₁) :
    RemoveConfigs fuel h a = some h₁ ∧
      (∀ lc ∈ L, ∀ n : OptionModel, h[lc]? = some n →
        ∀ (k : String) (c : Addr), (k, some c) ∈ n.ChildOptionMap →
          ∃ n' : OptionModel, h₁[c]? = some n' ∧ n'.Config = "") ∧
      RemoveConfigs fuel h₁ a = some h₁ := by
  have R : ClearRel h h₁ := clearLoop_rel L h h₁ hclear
  refine ⟨?_, ?_, ?_⟩
  · rw [RemoveConfigs]
    simp only [hlast]
    exact hclear
  · exact clearLoop_clears L h h₁ hclear
  · rw [RemoveConfigs]
    rw [lastChildsGo_congr h h₁ R hinv fuel a]
    simp only [hlast]
    apply clearLoop_noop
    intro lc hm
    have hsome := clearLoop_mem L h h₁ hclear lc hm
    obtain ⟨n, hn⟩ : ∃ n, h[lc]? = some n := by
      cases hg : h[lc]? with
      | none => rw [hg] at hsome; simp at hsome
      | some n => exact ⟨n, rfl⟩
    obtain ⟨n₁, hn₁, hch, _, _, _⟩ := R.children lc n hn
    refine ⟨n₁, hn₁, ?_⟩
    intro p hp
    rw [hch] at hp
    obtain ⟨ca, hca, _⟩ := clearLoop_entries L h h₁ hclear lc hm n hn p hp
    obtain ⟨n2', hn2', hcfg'⟩ := clearLoop_clears L h h₁ hclear lc hm n hn p.1 ca
      (by cases p; cases hca; exact hp)
    exact ⟨ca, n2', hca, hn2', hcfg'⟩

/-- The heaps of the C6 counterexample: `hC6` violates the title/config
invariant at node `1` (both `"t"` and `"c"` set); `hC6b` is the result of
the first `RemoveConfigs`, `hC6c` of the second. -/
def hC6 : Heap :=
  [⟨"r", "", "", [("a", some 1)], "", [], none⟩,
   ⟨"t", "", "", [("b", some 2)], "c", [], none⟩,
   ⟨"", "", "", [], "d", [], none⟩]

/-- `hC6` after one `RemoveConfigs` run. -/
def hC6b : Heap :=
  [⟨"r", "", "", [("a", some 1)], "", [], none⟩,
   ⟨"t", "", "", [("b", some 2)], "", [], none⟩,
   ⟨"", "", "", [], "d", [], none⟩]

/-- `hC6b` after another `RemoveConfigs` run — a different heap. -/
def hC6c : Heap :=
  [⟨"r", "", "", [("a", some 1)], "", [], none⟩,
   ⟨"t", "", "", [("b", some 2)], "", [], none⟩,
   ⟨"", "", "", [], "", [], none⟩]

/-- Claim C6 counterexample: on `hC6` — whose last-child nodes have only
non-nil immediate children, in both runs — `RemoveConfigs` is *not*
idempotent: the first run (last children `[0]`) clears node `1`'s config,
which turns node `1` from a tripping config node into a non-tripping
value node, so the second run (last children `[1]`) descends deeper and
clears node `2`'s config as well, changing the heap again. -/
theorem C6_counterexample :
    lastChildsGo hC6 9 0 = some [0] ∧ RemoveConfigs 9 hC6 0 = some hC6b ∧
      lastChildsGo hC6b 9 0 = some [1] ∧ RemoveConfigs 9 hC6b 0 = some hC6c ∧
      hC6c ≠ hC6b := by
  have hL1 : lastChildsGo hC6 9 0 = some [0] := by
    simp [lastChildsGo, lastChildsScan, hC6, OptionModel.IsConfigOption, OptionModel.IsEmpty,
      OptionModel.IsValueOption]
  have hL2 : lastChildsGo hC6b 9 0 = some [1] := by
    simp [lastChildsGo, lastChildsScan, hC6b, OptionModel.IsConfigOption, OptionModel.IsEmpty,
      OptionModel.IsValueOption]
  refine ⟨hL1, ?_, hL2, ?_, by decide⟩
  · rw [RemoveConfigs]
    simp only [hL1]
    decide
  · rw [RemoveConfigs]
    simp only [hL2]
    decide

/-- The invariant-respecting heap of the C6 witness. -/
def hC6w : Heap :=
  [⟨"r", "", "", [("a", some 1)], "", [], none⟩,
   ⟨"", "", "", [], "c", [], none⟩]

/-- `hC6w` with the config cleared. -/
def hC6w1 : Heap :=
  [⟨"r", "", "", [("a", some 1)], "", [], none⟩,
   ⟨"", "", "", [], "", [], none⟩]

/-- Claim C6 amended-theorem witness at a concrete input. -/
theorem C6_witness :
    RemoveConfigs 5 hC6w 0 = some hC6w1 ∧ RemoveConfigs 5 hC6w1 0 = some hC6w1 := by
  have hinv : TitleConfigInv hC6w := by
    intro a n han
    rcases a with _ | _ | a
    · simp [hC6w] at han
      subst han
      right
      rfl
    · simp [hC6w] at han
      subst han
      left
      rfl
    · simp [hC6w] at han
  have hlast : lastChildsGo hC6w 5 0 = some [0] := by
    simp [lastChildsGo, lastChildsScan, hC6w, OptionModel.IsConfigOption, OptionModel.IsEmpty,
      OptionModel.IsValueOption]
  have hclear : clearLoop hC6w [0] = some hC6w1 := by decide
  have h := C6_removeconfigs_clears_and_idempotent 5 hC6w 0 [0] hC6w1 hinv hlast hclear
  exact ⟨h.1, h.2.2⟩

/-! ## Claim C5 -/

theorem Child_cons (h : Heap) (s ca : Addr) (comp : String) (l : List String)
    (node : OptionModel) (hs : h[s]? = some node)
    (hlook : childLookup node.ChildOptionMap comp = some (some ca)) :
    Child h s (comp :: l) = Child h ca l := by
  rw [Child]
  simp only [hs, hlook]

/-- `Child` traversals that never pass through `pa` are insensitive to
changes that leave every other node's children map intact. -/
theorem Child_congr (h h' : Heap) (pa : Addr)
    (hagree : ∀ b : Addr, b ≠ pa →
      (h'[b]?).map OptionModel.ChildOptionMap = (h[b]?).map OptionModel.ChildOptionMap) :
    ∀ (p : List String) (s t : Addr),
      Child h s p = some t →
      (∀ i : Nat, i < p.length → Child h s (p.take i) ≠ some pa) →
      Child h' s p = some t := by
  intro p
  induction p with
  | nil =>
    intro s t hc _
    exact hc
  | cons comp rest ih =>
    intro s t hc hacyc
    have hs_ne : s ≠ pa := by
      intro he
      exact hacyc 0 (by simp) (by simp [Child, he])
    rw [Child] at hc
    cases hs : h[s]? with
    | none => simp [hs] at hc
    | some node =>
      simp only [hs] at hc
      cases hlook : childLookup node.ChildOptionMap comp with
      | none => simp [hlook] at hc
      | some oc =>
        match oc with
        | none => simp [hlook] at hc
        | some ca =>
          simp only [hlook] at hc
          have hag := hagree s hs_ne
          rw [hs] at hag
          cases hs' : h'[s]? with
          | none => rw [hs'] at hag; simp at hag
          | some node' =>
            rw [hs'] at hag
            simp only [Option.map_some', Option.some.injEq] at hag
            rw [Child]
            simp only [hs', hag, hlook]
            have hshift : ∀ i : Nat, i < rest.length → Child h ca (rest.take i) ≠ some pa := by
              intro i hi hbad
              apply hacyc (i + 1) (by simpa using Nat.succ_lt_succ hi)
              rw [List.take_succ_cons, Child_cons h s ca comp (rest.take i) node hs hlook]
              exact hbad
            exact ih ca t hc hshift

theorem AddConfig_eq_AddOption : @AddConfig = @AddOption := rfl

/-- Claim C5: in a well-formed tree (the receiver's recorded path
resolves to it from the root and never passes through the receiver — a
consequence of "every node reachable by a unique path" — and its
root-reference obeys the `AddOption` two-case rule), attaching a fresh
node `na` under key `v` by `AddOption` or `AddConfig` makes `Parent(na)`
return exactly the insertion parent, the edge label `v` and
`found = true`; and on any node with a nil `Head` (the root), `Parent`
returns `found = false`. -/
theorem C5_parent_correct (h : Heap) (root pa na : Addr) (v : String)
    (pnode nnode : OptionModel)
    (hpa : h[pa]? = some pnode)
    (hna : h[na]? = some nnode)
    (hne : na ≠ pa)
    (hhead : match pnode.Head with | none => pa = root | some x => x = root)
    (hpath : Child h root pnode.Components = some pa)
    (hacyc : ∀ i : Nat, i < pnode.Components.length →
      Child h root (pnode.Components.take i) ≠ some pa) :
    Parent (AddOption h pa v (some na)) na = some (some (pa, v)) ∧
      Parent (AddConfig h pa v (some na)) na = some (some (pa, v)) ∧
      (∀ (r : Addr) (rnode : OptionModel), h[r]? = some rnode → rnode.Head = none →
        Parent h r = some none) := by
  have hlt_pa : pa < h.length := (getElem?_isSome_iff h pa).mp (by rw [hpa]; rfl)
  have hlt_na : na < h.length := (getElem?_isSome_iff h na).mp (by rw [hna]; rfl)
  have hmain : Parent (AddOption h pa v (some na)) na = some (some (pa, v)) := by
    have h1na : (h.set pa
        { pnode with ChildOptionMap := mapSet pnode.ChildOptionMap v (some na) })[na]?
        = some nnode := by
      rw [List.getElem?_set_ne (Ne.symm hne)]
      exact hna
    have h1pa : (h.set pa
        { pnode with ChildOptionMap := mapSet pnode.ChildOptionMap v (some na) })[pa]?
        = some { pnode with ChildOptionMap := mapSet pnode.ChildOptionMap v (some na) } :=
      List.getElem?_set_self hlt_pa
    have hrun : AddOption h pa v (some na) =
        (h.set pa { pnode with ChildOptionMap := mapSet pnode.ChildOptionMap v (some na) }).set
          na { nnode with
            Components := pnode.Components ++ [v]
            Head := match pnode.Head with
              | none => some pa
              | some x => some x } := by
      rw [AddOption]
      simp only [hpa, h1na, h1pa]
    have h2na : (AddOption h pa v (some na))[na]? = some { nnode with
        Components := pnode.Components ++ [v]
        Head := match pnode.Head with
          | none => some pa
          | some x => some x } := by
      rw [hrun]
      exact List.getElem?_set_self (by rw [List.length_set]; exact hlt_na)
    have hd_eq : (match pnode.Head with
        | none => some pa
        | some x => some x) = some root := by
      cases hh : pnode.Head with
      | none => rw [hh] at hhead; simp [hhead]
      | some x => rw [hh] at hhead; simp [hhead]
    have hagree : ∀ b : Addr, b ≠ pa →
        ((AddOption h pa v (some na))[b]?).map OptionModel.ChildOptionMap =
          (h[b]?).map OptionModel.ChildOptionMap := by
      intro b hb
      have := AddOption_children h pa v (some na) b
      rw [if_neg hb] at this
      exact this
    have hchild : Child (AddOption h pa v (some na)) root pnode.Components = some pa :=
      Child_congr h (AddOption h pa v (some na)) pa hagree pnode.Components root pa hpath hacyc
    have hne2 : (pnode.Components ++ [v]).isEmpty = false := by
      cases pnode.Components <;> rfl
    rw [Parent]
    simp only [h2na, hd_eq, hne2, Bool.false_eq_true, if_false, List.dropLast_concat, hchild,
      List.getLastD_concat]
  refine ⟨hmain, ?_, ?_⟩
  · rw [AddConfig_eq_AddOption]
    exact hmain
  · intro r rnode hr hhead0
    rw [Parent]
    simp only [hr, hhead0]

/-- The concrete heap of the C5 witness: a root node `0` and a detached
fresh node `1` about to be attached under `"v"`. -/
def hC5 : Heap :=
  [⟨"r", "k", "", [], "", [], none⟩,
   ⟨"x", "e", "", [], "", [], none⟩]

/-- Claim C5 witness at a concrete input: after attaching node `1` under
`"v"` at the root, `Parent` recovers `(0, "v", true)`, for `AddOption`
and `AddConfig` alike, and `Parent` of the root itself reports
`found = false`. -/
theorem C5_witness :
    Parent (AddOption hC5 0 "v" (some 1)) 1 = some (some (0, "v")) ∧
      Parent (AddConfig hC5 0 "v" (some 1)) 1 = some (some (0, "v")) ∧
      Parent hC5 0 = some none := by
  have h := C5_parent_correct hC5 0 0 1 "v" ⟨"r", "k", "", [], "", [], none⟩
    ⟨"x", "e", "", [], "", [], none⟩ rfl rfl (by decide) (by simp) (by simp [Child, hC5])
    (by intro i hi; simp at hi)
  exact ⟨h.1, h.2.1, h.2.2 0 ⟨"r", "k", "", [], "", [], none⟩ rfl rfl⟩

/-! ## Claim C7 -/

mutual

/-- Depth of the serialized document: the fuel `marshalNode` needs. -/
def SerTree.depth : SerTree → Nat
  | .mk _ _ _ _ cs => childrenDepth cs + 1

/-- Depth of a serialized children map. -/
def childrenDepth : List (String × Option SerTree) → Nat
  | [] => 0
  | (_, none) :: rest => childrenDepth rest
  | (_, some t) :: rest => max (SerTree.depth t) (childrenDepth rest)

end

/-- Marshalling only reads the heap, so appending nodes cannot change a
successful result. -/
theorem marshalChildren_extend_aux (h ext : Heap) (fuel : Nat)
    (ihnode : ∀ (a : Addr) (t : SerTree),
      marshalNode h fuel a = some t → marshalNode (h ++ ext) fuel a = some t) :
    ∀ (cs : List (String × Option Addr)) (out : List (String × Option SerTree)),
      marshalChildren h fuel cs = some out → marshalChildren (h ++ ext) fuel cs = some out := by
  intro cs
  induction cs with
  | nil =>
    intro out hm
    rw [marshalChildren] at hm ⊢
    exact hm
  | cons p rest ih =>
    intro out hm
    obtain ⟨k, c⟩ := p
    match c with
    | none =>
      rw [marshalChildren] at hm ⊢
      cases hr : marshalChildren h fuel rest with
      | none => simp [hr] at hm
      | some cs2 =>
        simp only [hr] at hm
        rw [ih cs2 hr]
        exact hm
    | some ca =>
      rw [marshalChildren] at hm ⊢
      cases hn : marshalNode h fuel ca with
      | none => simp [hn] at hm
      | some t =>
        simp only [hn] at hm
        rw [ihnode ca t hn]
        cases hr : marshalChildren h fuel rest with
        | none => simp [hr] at hm
        | some cs2 =>
          simp only [hr] at hm
          rw [ih cs2 hr]
          exact hm

theorem marshalNode_extend (h ext : Heap) : ∀ (fuel : Nat) (a : Addr) (t : SerTree),
    marshalNode h fuel a = some t → marshalNode (h ++ ext) fuel a = some t := by
  intro fuel
  induction fuel with
  | zero =>
    intro a t hm
    rw [marshalNode] at hm
    cases hm
  | succ fuel ih =>
    intro a t hm
    rw [marshalNode] at hm ⊢
    cases ha : h[a]? with
    | none => simp [ha] at hm
    | some n =>
      simp only [ha] at hm
      have ha' : (h ++ ext)[a]? = some n := by
        rw [List.getElem?_append_left ((getElem?_isSome_iff h a).mp (by rw [ha]; rfl))]
        exact ha
      simp only [ha']
      cases hmc : marshalChildren h fuel n.ChildOptionMap with
      | none => simp [hmc] at hm
      | some cs =>
        simp only [hmc] at hm
        rw [marshalChildren_extend_aux h ext fuel ih n.ChildOptionMap cs hmc]
        exact hm

mutual

/-- The unmarshalled copy: it extends the heap, its root is fresh, every
fresh node has zeroed transient fields (`Components`, `Head`) and points
only at fresh nodes, and marshalling it back yields the original
document. -/
theorem unmarshalNode_spec : ∀ (t : SerTree) (h : Heap),
    (∃ ext : Heap, (unmarshalNode t h).1 = h ++ ext) ∧
      h.length ≤ (unmarshalNode t h).2 ∧
      (unmarshalNode t h).2 < (unmarshalNode t h).1.length ∧
      (∀ (i : Addr) (n : OptionModel), h.length ≤ i → (unmarshalNode t h).1[i]? = some n →
        n.Components = [] ∧ n.Head = none ∧
        ∀ (k : String) (c : Addr), (k, some c) ∈ n.ChildOptionMap → h.length ≤ c) ∧
      (∀ fuel : Nat, t.depth ≤ fuel →
        marshalNode (unmarshalNode t h).1 fuel (unmarshalNode t h).2 = some t)
  | .mk ti e ty cfg cs, h => by
    obtain ⟨⟨ext, hext⟩, hfresh, hbound, hround⟩ := unmarshalChildren_spec cs h
    have hres1 : (unmarshalNode (.mk ti e ty cfg cs) h).1 =
        (unmarshalChildren cs h).1 ++ [⟨ti, e, ty, (unmarshalChildren cs h).2, cfg, [], none⟩] :=
      rfl
    have hres2 : (unmarshalNode (.mk ti e ty cfg cs) h).2 = (unmarshalChildren cs h).1.length :=
      rfl
    have hlen : h.length ≤ (unmarshalChildren cs h).1.length := by
      rw [hext, List.length_append]
      omega
    have hnode : (unmarshalNode (.mk ti e ty cfg cs) h).1[(unmarshalChildren cs h).1.length]?
        = some ⟨ti, e, ty, (unmarshalChildren cs h).2, cfg, [], none⟩ := by
      rw [hres1]
      exact List.getElem?_concat_length _ _
    refine ⟨⟨ext ++ [_], by rw [hres1, hext, List.append_assoc]⟩, ?_, ?_, ?_, ?_⟩
    · rw [hres2]
      exact hlen
    · rw [hres1, hres2, List.length_append]
      simp
    · intro i n hi hn
      rw [hres1] at hn
      by_cases hilt : i < (unmarshalChildren cs h).1.length
      · rw [List.getElem?_append_left hilt] at hn
        exact hfresh i n hi hn
      · push_neg at hilt
        have hieq : i = (unmarshalChildren cs h).1.length := by
          have h2 : i < ((unmarshalChildren cs h).1 ++
              [(⟨ti, e, ty, (unmarshalChildren cs h).2, cfg, [], none⟩ : OptionModel)]).length :=
            (getElem?_isSome_iff _ i).mp (by rw [hn]; rfl)
          rw [List.length_append] at h2
          simp only [List.length_cons, List.length_nil] at h2
          exact Nat.le_antisymm (Nat.lt_succ_iff.mp (by simpa using h2)) hilt
        subst hieq
        rw [List.getElem?_concat_length] at hn
        cases hn
        refine ⟨rfl, rfl, ?_⟩
        intro k c hkc
        rcases hbound k (some c) hkc with hnone | ⟨ca, hca, hge, _⟩
        · cases hnone
        · cases hca
          exact hge
    · intro fuel hd
      rw [SerTree.depth] at hd
      cases fuel with
      | zero => omega
      | succ fuel =>
        rw [hres2, marshalNode]
        simp only [hnode]
        have hmc : marshalChildren (unmarshalNode (.mk ti e ty cfg cs) h).1 fuel
            (unmarshalChildren cs h).2 = some cs := by
          rw [hres1]
          exact marshalChildren_extend_aux (unmarshalChildren cs h).1 _ fuel
            (fun a t hm => marshalNode_extend _ _ fuel a t hm) _ _
            (hround fuel (by omega))
        simp only [hmc]

theorem unmarshalChildren_spec : ∀ (cs : List (String × Option SerTree)) (h : Heap),
    (∃ ext : Heap, (unmarshalChildren cs h).1 = h ++ ext) ∧
      (∀ (i : Addr) (n : OptionModel), h.length ≤ i → (unmarshalChildren cs h).1[i]? = some n →
        n.Components = [] ∧ n.Head = none ∧
        ∀ (k : String) (c : Addr), (k, some c) ∈ n.ChildOptionMap → h.length ≤ c) ∧
      (∀ (k : String) (c : Option Addr), (k, c) ∈ (unmarshalChildren cs h).2 →
        c = none ∨ ∃ ca : Addr, c = some ca ∧ h.length ≤ ca ∧
          ca < (unmarshalChildren cs h).1.length) ∧
      (∀ fuel : Nat, childrenDepth cs ≤ fuel →
        marshalChildren (unmarshalChildren cs h).1 fuel (unmarshalChildren cs h).2 = some cs)
  | [], h => by
    have hres1 : (unmarshalChildren ([] : List (String × Option SerTree)) h).1 = h := rfl
    have hres2 : (unmarshalChildren ([] : List (String × Option SerTree)) h).2 =
        ([] : List (String × Option Addr)) := rfl
    rw [hres1, hres2]
    refine ⟨⟨[], by simp⟩, ?_, ?_, ?_⟩
    · intro i n hi hn
      have h2 := (getElem?_isSome_iff h i).mp (by rw [hn]; rfl)
      omega
    · intro k c hkc
      cases hkc
    · intro fuel _
      rw [marshalChildren]
  | (k0, none) :: rest, h => by
    obtain ⟨hext, hfresh, hbound, hround⟩ := unmarshalChildren_spec rest h
    have hres1 : (unmarshalChildren ((k0, none) :: rest) h).1 = (unmarshalChildren rest h).1 :=
      rfl
    have hres2 : (unmarshalChildren ((k0, none) :: rest) h).2 =
        (k0, none) :: (unmarshalChildren rest h).2 := rfl
    rw [hres1, hres2]
    refine ⟨hext, hfresh, ?_, ?_⟩
    · intro k c hkc
      cases hkc with
      | head => exact Or.inl rfl
      | tail _ hkc2 => exact hbound k c hkc2
    · intro fuel hd
      rw [childrenDepth] at hd
      rw [marshalChildren]
      simp only [hround fuel hd]
  | (k0, some t) :: rest, h => by
    obtain ⟨⟨e1, he1⟩, hge1, hlt1, hfresh1, hround1⟩ := unmarshalNode_spec t h
    obtain ⟨⟨e2, he2⟩, hfresh2, hbound2, hround2⟩ :=
      unmarshalChildren_spec rest (unmarshalNode t h).1
    have hres1 : (unmarshalChildren ((k0, some t) :: rest) h).1 =
        (unmarshalChildren rest (unmarshalNode t h).1).1 := rfl
    have hres2 : (unmarshalChildren ((k0, some t) :: rest) h).2 =
        (k0, some (unmarshalNode t h).2) :: (unmarshalChildren rest (unmarshalNode t h).1).2 :=
      rfl
    have hlenA : h.length ≤ (unmarshalNode t h).1.length := by
      rw [he1, List.length_append]
      omega
    have hlenB : (unmarshalNode t h).1.length ≤
        (unmarshalChildren rest (unmarshalNode t h).1).1.length := by
      rw [he2, List.length_append]
      omega
    rw [hres1, hres2]
    refine ⟨⟨e1 ++ e2, by rw [he2, he1, List.append_assoc]⟩, ?_, ?_, ?_⟩
    · intro i n hi hn
      by_cases hilt : i < (unmarshalNode t h).1.length
      · rw [he2, List.getElem?_append_left hilt] at hn
        exact hfresh1 i n hi hn
      · push_neg at hilt
        obtain ⟨c1, c2, c3⟩ := hfresh2 i n hilt hn
        exact ⟨c1, c2, fun k c hkc => le_trans hlenA (c3 k c hkc)⟩
    · intro k c hkc
      cases hkc with
      | head => exact Or.inr ⟨(unmarshalNode t h).2, rfl, hge1, lt_of_lt_of_le hlt1 hlenB⟩
      | tail _ hkc2 =>
        rcases hbound2 k c hkc2 with hnone | ⟨ca, hca, hge, hlt⟩
        · exact Or.inl hnone
        · exact Or.inr ⟨ca, hca, le_trans hlenA hge, hlt⟩
    · intro fuel hd
      rw [childrenDepth] at hd
      rw [marshalChildren]
      have hm1 : marshalNode (unmarshalChildren rest (unmarshalNode t h).1).1 fuel
          (unmarshalNode t h).2 = some t := by
        rw [he2]
        exact marshalNode_extend _ _ fuel _ t
          (hround1 fuel (le_trans (le_max_left _ _) hd))
      have hm2 : marshalChildren (unmarshalChildren rest (unmarshalNode t h).1).1 fuel
          (unmarshalChildren rest (unmarshalNode t h).1).2 = some rest :=
        hround2 fuel (le_trans (le_max_right _ _) hd)
      simp only [hm1, hm2]

end

/-- Claim C7: `Copy` is the marshal/unmarshal round trip.  A failed
marshal returns the nil signal and nothing else; a successful `Copy`
yields a fully fresh clone: the original heap is only extended (so no
mutation of the copy can reach the original node), the copied nodes drop
the transient `Components`/`Head` fields and reference only fresh nodes,
and the copy's serializable content equals the original's (`marshalNode`
of the copy returns the same document, so `Copy (Copy n)` deep-equals
`Copy n` on the serialized fields). -/
theorem C7_copy_roundtrip (fuel : Nat) (h : Heap) (a : Addr) :
    (marshalNode h fuel a = none → Copy fuel h a = none) ∧
      ∀ t : SerTree, marshalNode h fuel a = some t →
        Copy fuel h a = some (unmarshalNode t h) ∧
        (∃ ext : Heap, (unmarshalNode t h).1 = h ++ ext) ∧
        h.length ≤ (unmarshalNode t h).2 ∧
        (unmarshalNode t h).2 < (unmarshalNode t h).1.length ∧
        (∀ (i : Addr) (n : OptionModel), h.length ≤ i → (unmarshalNode t h).1[i]? = some n →
          n.Components = [] ∧ n.Head = none ∧
          ∀ (k : String) (c : Addr), (k, some c) ∈ n.ChildOptionMap → h.length ≤ c) ∧
        (∀ fuel' : Nat, t.depth ≤ fuel' →
          marshalNode (unmarshalNode t h).1 fuel' (unmarshalNode t h).2 = some t ∧
          Copy fuel' (unmarshalNode t h).1 (unmarshalNode t h).2 =
            some (unmarshalNode t (unmarshalNode t h).1)) := by
  constructor
  · intro hm
    rw [Copy]
    simp only [hm]
  · intro t hm
    obtain ⟨hext, hge, hlt, hfresh, hround⟩ := unmarshalNode_spec t h
    refine ⟨by rw [Copy]; simp only [hm], hext, hge, hlt, hfresh, ?_⟩
    intro fuel2 hd
    have hms := hround fuel2 hd
    exact ⟨hms, by rw [Copy]; simp only [hms]⟩

/-- The concrete heap of the C7 witness: a root with a config child and a
nil entry, carrying junk transient fields that the copy must drop. -/
def hC7 : Heap :=
  [⟨"t", "k", "ty", [("a", some 1), ("b", none)], "", ["p"], some 5⟩,
   ⟨"", "", "", [], "cfg", ["q"], some 0⟩]

/-- The document `hC7`'s root marshals to. -/
def tC7 : SerTree :=
  .mk "t" "k" "ty" "" [("a", some (.mk "" "" "" "cfg" [])), ("b", none)]

/-- Claim C7 witness at a concrete input. -/
theorem C7_witness :
    Copy 3 hC7 0 = some (unmarshalNode tC7 hC7) ∧
      marshalNode (unmarshalNode tC7 hC7).1 2 (unmarshalNode tC7 hC7).2 = some tC7 := by
  have hm : marshalNode hC7 3 0 = some tC7 := by
    simp [marshalNode, marshalChildren, hC7, tC7]
  have h := (C7_copy_roundtrip 3 hC7 0).2 tC7 hm
  refine ⟨h.1, ?_⟩
  have hd : tC7.depth ≤ 2 := by
    simp [tC7, SerTree.depth, childrenDepth]
  exact (h.2.2.2.2.2 2 hd).1

end BitriseInit

